import Mathlib

/-!
Verification development for the erc20-top-holder-monitor repository.

The Python sources (`main.py`, `cache.py`, `config.py`) are shallowly
embedded below.  Addresses, topic words and transaction hashes are
modelled as natural numbers (a topic word is a 256-bit value, an address
its low 160 bits); Python floats are modelled as rationals; Python
dictionaries are modelled as association lists whose update/erase
operations mirror `dict` insertion-order semantics; Python
`OrderedDict`-based LRU state is modelled as a list of keys ordered from
least-recently to most-recently touched.
-/

set_option autoImplicit false
set_option maxRecDepth 8000

/-! ### Association lists (Python `dict` with insertion order) -/

/-- First-match lookup in an association list, following Python `d[k]`. -/
def alookup {α : Type} {β : Type} [DecidableEq α] (k : α) : List (α × β) → Option β
  | [] => none
  | p :: rest => if p.1 = k then some p.2 else alookup k rest

/-- Python `d[k] = v`: replace the first binding in place, or append a new one. -/
def ainsert {α : Type} {β : Type} [DecidableEq α] (k : α) (v : β) : List (α × β) → List (α × β)
  | [] => [(k, v)]
  | p :: rest => if p.1 = k then (k, v) :: rest else p :: ainsert k v rest

/-- Python `d.pop(k, None)`: drop the first binding of `k`, if any. -/
def aerase {α : Type} {β : Type} [DecidableEq α] (k : α) : List (α × β) → List (α × β)
  | [] => []
  | p :: rest => if p.1 = k then rest else p :: aerase k rest

/-- The keys of an association list, in order. -/
def akeys {α : Type} {β : Type} (l : List (α × β)) : List α := l.map Prod.fst

section AssocLemmas

variable {α β : Type} [DecidableEq α]

@[simp] theorem alookup_nil (k : α) : alookup (β := β) k [] = none := rfl

theorem alookup_cons (k : α) (p : α × β) (rest : List (α × β)) :
    alookup k (p :: rest) = if p.1 = k then some p.2 else alookup k rest := rfl

@[simp] theorem ainsert_lookup_self (k : α) (v : β) (l : List (α × β)) :
    alookup k (ainsert k v l) = some v := by
  induction l with
  | nil => simp [ainsert, alookup]
  | cons p rest ih =>
    by_cases h : p.1 = k
    · simp [ainsert, alookup, h]
    · simp [ainsert, alookup, h, ih]

theorem ainsert_lookup_other (k k' : α) (v : β) (l : List (α × β)) (hne : k' ≠ k) :
    alookup k' (ainsert k v l) = alookup k' l := by
  have hkk : ¬ (k = k') := fun h => hne h.symm
  induction l with
  | nil => simp [ainsert, alookup, hkk]
  | cons p rest ih =>
    by_cases h : p.1 = k
    · subst h
      simp [ainsert, alookup, hkk]
    · simp only [ainsert, if_neg h]
      rw [alookup_cons, alookup_cons, ih]

theorem aerase_lookup_other (k k' : α) (l : List (α × β)) (hne : k' ≠ k) :
    alookup k' (aerase k l) = alookup k' l := by
  have hkk : ¬ (k = k') := fun h => hne h.symm
  induction l with
  | nil => simp [aerase]
  | cons p rest ih =>
    by_cases h : p.1 = k
    · subst h
      simp [aerase, alookup, hkk]
    · simp only [aerase, if_neg h]
      rw [alookup_cons, alookup_cons, ih]

theorem alookup_eq_none_of_not_mem_akeys (k : α) (l : List (α × β))
    (hk : k ∉ akeys l) : alookup k l = none := by
  induction l with
  | nil => rfl
  | cons p rest ih =>
    simp only [akeys, List.map_cons, List.mem_cons, not_or] at hk
    rw [alookup_cons, if_neg (fun h => hk.1 h.symm)]
    exact ih (by simpa [akeys] using hk.2)

theorem aerase_lookup_self (k : α) (l : List (α × β)) (hnd : (akeys l).Nodup) :
    alookup k (aerase k l) = none := by
  induction l with
  | nil => simp [aerase]
  | cons p rest ih =>
    simp only [akeys, List.map_cons, List.nodup_cons] at hnd
    by_cases h : p.1 = k
    · subst h
      simp only [aerase, if_pos rfl]
      exact alookup_eq_none_of_not_mem_akeys _ _ (by simpa [akeys] using hnd.1)
    · simp only [aerase, if_neg h]
      rw [alookup_cons, if_neg h]
      exact ih (by simpa [akeys] using hnd.2)

theorem akeys_ainsert (k : α) (v : β) (l : List (α × β)) :
    akeys (ainsert k v l) = if k ∈ akeys l then akeys l else akeys l ++ [k] := by
  induction l with
  | nil => simp [ainsert, akeys]
  | cons p rest ih =>
    by_cases h : p.1 = k
    · simp [ainsert, akeys, h]
    · have h2 : ¬ k = p.1 := fun hc => h hc.symm
      simp only [ainsert, if_neg h, akeys, List.map_cons]
      simp only [akeys] at ih
      rw [ih]
      by_cases hm : k ∈ List.map Prod.fst rest
      · simp [hm, h2]
      · simp [hm, h2]

theorem akeys_ainsert_nodup (k : α) (v : β) (l : List (α × β)) (hnd : (akeys l).Nodup) :
    (akeys (ainsert k v l)).Nodup := by
  rw [akeys_ainsert]
  by_cases hm : k ∈ akeys l
  · simpa [hm]
  · simpa [hm, List.nodup_append] using hnd

theorem aerase_sublist (k : α) (l : List (α × β)) : (aerase k l).Sublist l := by
  induction l with
  | nil => simp [aerase]
  | cons p rest ih =>
    by_cases h : p.1 = k
    · simp only [aerase, if_pos h]
      exact List.sublist_cons_self p rest
    · simp only [aerase, if_neg h]
      exact ih.cons₂ p

theorem akeys_aerase_nodup (k : α) (l : List (α × β)) (hnd : (akeys l).Nodup) :
    (akeys (aerase k l)).Nodup := by
  have hsub : (akeys (aerase k l)).Sublist (akeys l) := (aerase_sublist k l).map Prod.fst
  exact hnd.sublist hsub

theorem mem_ainsert (k : α) (v : β) (l : List (α × β)) (p : α × β)
    (hp : p ∈ ainsert k v l) : p = (k, v) ∨ p ∈ l := by
  induction l with
  | nil => simpa [ainsert] using hp
  | cons q rest ih =>
    by_cases h : q.1 = k
    · simp only [ainsert, if_pos h, List.mem_cons] at hp
      rcases hp with h1 | h2
      · exact Or.inl h1
      · exact Or.inr (List.mem_cons_of_mem q h2)
    · simp only [ainsert, if_neg h, List.mem_cons] at hp
      rcases hp with h1 | h2
      · exact Or.inr (h1 ▸ List.mem_cons_self q rest)
      · rcases ih h2 with h3 | h4
        · exact Or.inl h3
        · exact Or.inr (List.mem_cons_of_mem q h4)

theorem mem_aerase (k : α) (l : List (α × β)) (p : α × β)
    (hp : p ∈ aerase k l) : p ∈ l :=
  (aerase_sublist k l).mem hp

theorem alookup_isSome_of_mem_akeys (k : α) (l : List (α × β)) (hk : k ∈ akeys l) :
    ∃ v, alookup k l = some v := by
  induction l with
  | nil => simp [akeys] at hk
  | cons p rest ih =>
    by_cases h : p.1 = k
    · exact ⟨p.2, by simp [alookup, h]⟩
    · simp only [akeys, List.map_cons, List.mem_cons] at hk
      rcases hk with h1 | h2
      · exact absurd h1.symm h
      · obtain ⟨v, hv⟩ := ih h2
        exact ⟨v, by simp [alookup, h, hv]⟩

theorem mem_akeys_of_alookup (k : α) (l : List (α × β)) (v : β)
    (h : alookup k l = some v) : k ∈ akeys l := by
  induction l with
  | nil => simp [alookup] at h
  | cons p rest ih =>
    by_cases hh : p.1 = k
    · simp [akeys, hh.symm]
    · simp only [alookup, if_neg hh] at h
      simp only [akeys, List.map_cons, List.mem_cons]
      exact Or.inr (by simpa [akeys] using ih h)

end AssocLemmas

/-! ### LRU cache (`main.py` lines 33-60, class `LRUCache`)

Python stores an `OrderedDict`; we keep the key list in dictionary order,
head = least-recently touched, last = most-recently touched.
`move_to_end` becomes `bumpList`; `popitem(last=False)` pops the head. -/

structure LRUCache where
  order : List Nat
  capacity : Nat
deriving Repr, DecidableEq

def LRUCache.emptyCache (c : Nat) : LRUCache := ⟨[], c⟩

/-- `OrderedDict.move_to_end(key)`: remove the key and re-append it at the end. -/
def LRUCache.bumpList (l : List Nat) (k : Nat) : List Nat :=
  l.filter (fun x => x ≠ k) ++ [k]

/-- `contains`: on a hit the key is moved to most-recent; returns the hit flag
and the updated state. -/
def LRUCache.containsBump (s : LRUCache) (k : Nat) : Bool × LRUCache :=
  if k ∈ s.order then (true, ⟨LRUCache.bumpList s.order k, s.capacity⟩) else (false, s)

/-- `add`: bump if present, otherwise insert; evict the least-recent key
(`popitem(last=False)`) when the size exceeds capacity.  Also returns the
evicted key, if any. -/
def LRUCache.add (s : LRUCache) (k : Nat) : LRUCache × Option Nat :=
  if k ∈ s.order then (⟨LRUCache.bumpList s.order k, s.capacity⟩, none)
  else if s.capacity < (s.order ++ [k]).length then
    (⟨(s.order ++ [k]).tail, s.capacity⟩, (s.order ++ [k]).head?)
  else (⟨s.order ++ [k], s.capacity⟩, none)

/-- One externally visible operation on the dedup set. -/
inductive LOp
  | query (k : Nat)
  | put (k : Nat)
deriving Repr, DecidableEq

def LRUCache.applyOp (s : LRUCache) : LOp → LRUCache
  | .query k => (s.containsBump k).2
  | .put k => (s.add k).1

/-- All states reached while running a sequence of operations from the empty
cache of capacity `c` (the initial state included). -/
def lruTrace (c : Nat) (ops : List LOp) : List LRUCache :=
  List.scanl LRUCache.applyOp (LRUCache.emptyCache c) ops

section LRULemmas

theorem filter_ne_length_lt (l : List Nat) (k : Nat) (hk : k ∈ l) :
    (l.filter (fun x => x ≠ k)).length < l.length := by
  induction l with
  | nil => cases hk
  | cons a rest ih =>
    by_cases ha : a = k
    · subst ha
      rw [List.filter_cons_of_neg (by simp)]
      exact Nat.lt_succ_of_le (by simpa using List.length_filter_le (fun x => decide (x ≠ a)) rest)
    · rcases List.mem_cons.mp hk with h1 | h2
      · exact absurd h1.symm ha
      · simp only [List.filter_cons]
        have hdec : (decide (a ≠ k)) = true := by simp [ha]
        simp only [ne_eq, decide_not] at hdec ⊢
        rw [hdec]
        simpa using Nat.succ_lt_succ (ih h2)

theorem bumpList_length_le (l : List Nat) (k : Nat) (hk : k ∈ l) :
    (LRUCache.bumpList l k).length ≤ l.length := by
  unfold LRUCache.bumpList
  rw [List.length_append, List.length_singleton]
  have := filter_ne_length_lt l k hk
  omega

theorem bumpList_nodup (l : List Nat) (k : Nat) (hnd : l.Nodup) :
    (LRUCache.bumpList l k).Nodup := by
  unfold LRUCache.bumpList
  rw [List.nodup_append]
  refine ⟨hnd.filter _, List.nodup_singleton k, ?_⟩
  intro x hx
  have := List.of_mem_filter hx
  simp only [ne_eq, decide_not, Bool.not_eq_true', decide_eq_false_iff_not] at this
  simpa using this

theorem bumpList_getLast (l : List Nat) (k : Nat) :
    (LRUCache.bumpList l k).getLast? = some k := by
  unfold LRUCache.bumpList
  simp [List.getLast?_append]

theorem bumpList_mem_self (l : List Nat) (k : Nat) : k ∈ LRUCache.bumpList l k := by
  unfold LRUCache.bumpList
  simp

/-- Validity: no duplicate keys, size within capacity, capacity as constructed. -/
def LRUValid (c : Nat) (s : LRUCache) : Prop :=
  s.order.Nodup ∧ s.order.length ≤ c ∧ s.capacity = c

theorem lru_valid_empty (c : Nat) : LRUValid c (LRUCache.emptyCache c) := by
  refine ⟨List.nodup_nil, ?_, rfl⟩
  simp [LRUCache.emptyCache]

theorem lru_valid_containsBump (c : Nat) (s : LRUCache) (k : Nat) (h : LRUValid c s) :
    LRUValid c (s.containsBump k).2 := by
  obtain ⟨hnd, hlen, hcap⟩ := h
  unfold LRUCache.containsBump
  by_cases hm : k ∈ s.order
  · refine ⟨?_, ?_, ?_⟩ <;> simp only [if_pos hm]
    · exact bumpList_nodup _ _ hnd
    · exact le_trans (bumpList_length_le _ _ hm) hlen
    · exact hcap
  · simpa [hm] using ⟨hnd, hlen, hcap⟩

theorem nodup_append_singleton (l : List Nat) (k : Nat) (hnd : l.Nodup) (hm : k ∉ l) :
    (l ++ [k]).Nodup := by
  rw [List.nodup_append]
  refine ⟨hnd, List.nodup_singleton k, ?_⟩
  intro x hx hk2
  rw [List.mem_singleton] at hk2
  exact hm (hk2 ▸ hx)

theorem lru_valid_add (c : Nat) (s : LRUCache) (k : Nat) (h : LRUValid c s) :
    LRUValid c (s.add k).1 := by
  obtain ⟨hnd, hlen, hcap⟩ := h
  unfold LRUCache.add
  by_cases hm : k ∈ s.order
  · refine ⟨?_, ?_, ?_⟩ <;> simp only [if_pos hm]
    · exact bumpList_nodup _ _ hnd
    · exact le_trans (bumpList_length_le _ _ hm) hlen
    · exact hcap
  · simp only [if_neg hm]
    by_cases hlong : s.capacity < (s.order ++ [k]).length
    · simp only [if_pos hlong]
      refine ⟨?_, ?_, hcap⟩
      · exact (nodup_append_singleton s.order k hnd hm).sublist (List.tail_sublist _)
      · have htail : (s.order ++ [k]).tail.length = s.order.length := by
          cases s.order <;> simp
        show (s.order ++ [k]).tail.length ≤ c
        rw [htail]
        exact hcap ▸ hlen
    · simp only [if_neg hlong]
      refine ⟨nodup_append_singleton s.order k hnd hm, ?_, hcap⟩
      rw [List.length_append, List.length_singleton] at hlong
      rw [hcap] at hlong
      show (s.order ++ [k]).length ≤ c
      rw [List.length_append, List.length_singleton]
      omega

theorem lru_valid_applyOp (c : Nat) (s : LRUCache) (op : LOp) (h : LRUValid c s) :
    LRUValid c (s.applyOp op) := by
  cases op with
  | query k => exact lru_valid_containsBump c s k h
  | put k => exact lru_valid_add c s k h

theorem lru_trace_valid (c : Nat) (ops : List LOp) :
    ∀ s ∈ lruTrace c ops, LRUValid c s := by
  have main : ∀ (ops : List LOp) (s0 : LRUCache), LRUValid c s0 →
      ∀ s ∈ List.scanl LRUCache.applyOp s0 ops, LRUValid c s := by
    intro ops
    induction ops with
    | nil =>
      intro s0 h0 s hs
      simp only [List.scanl, List.mem_singleton] at hs
      exact hs ▸ h0
    | cons op rest ih =>
      intro s0 h0 s hs
      simp only [List.scanl, List.mem_cons] at hs
      rcases hs with h1 | h2
      · exact h1 ▸ h0
      · exact ih _ (lru_valid_applyOp c s0 op h0) s h2
  exact main ops _ (lru_valid_empty c)

theorem lru_add_mem (s : LRUCache) (k : Nat) (hcap : 1 ≤ s.capacity) :
    k ∈ (s.add k).1.order := by
  unfold LRUCache.add
  by_cases hm : k ∈ s.order
  · simpa [hm] using bumpList_mem_self s.order k
  · simp only [if_neg hm]
    by_cases hlong : s.capacity < (s.order ++ [k]).length
    · simp only [if_pos hlong]
      cases horder : s.order with
      | nil =>
        rw [horder] at hlong
        simp only [List.nil_append, List.length_singleton] at hlong
        omega
      | cons a rest => simp
    · simp only [if_neg hlong]
      simp

theorem lru_containsBump_mem (s : LRUCache) (k : Nat) (hm : k ∈ s.order) :
    (s.containsBump k) = (true, ⟨LRUCache.bumpList s.order k, s.capacity⟩) := by
  unfold LRUCache.containsBump
  simp [hm]

theorem lru_containsBump_not_mem (s : LRUCache) (k : Nat) (hm : k ∉ s.order) :
    (s.containsBump k) = (false, s) := by
  unfold LRUCache.containsBump
  simp [hm]

theorem lru_containsBump_capacity (s : LRUCache) (k : Nat) :
    (s.containsBump k).2.capacity = s.capacity := by
  unfold LRUCache.containsBump
  by_cases hm : k ∈ s.order <;> simp [hm]

theorem lru_add_capacity (s : LRUCache) (k : Nat) :
    (s.add k).1.capacity = s.capacity := by
  unfold LRUCache.add
  by_cases hm : k ∈ s.order
  · simp [hm]
  · simp only [if_neg hm]
    split <;> rfl

end LRULemmas

/-! ### Global whale index (`main.py` line 143, `global_whale_index`)

`{whale_address: {token_address: rank}}`, modelled as nested association
lists.  `removeAddrToken` is the body of the removal loop of
`_update_token_whitelist` (lines 633-637); `insertAddrToken` is the body of
the addition loop (lines 640-643). -/

abbrev IdxInner := List (Nat × Nat)

abbrev WIndex := List (Nat × IdxInner)

/-- The rank the index stores for `(whale a, token t)`, if present. -/
def idxRank (idx : WIndex) (a t : Nat) : Option Nat :=
  (alookup a idx).bind (alookup t)

/-- `if addr in index: index[addr].pop(tok, None); if not index[addr]: del index[addr]`. -/
def removeAddrToken (idx : WIndex) (a t : Nat) : WIndex :=
  match alookup a idx with
  | none => idx
  | some m => if aerase t m = [] then aerase a idx else ainsert a (aerase t m) idx

/-- `if addr not in index: index[addr] = {}; index[addr][tok] = rank`. -/
def insertAddrToken (idx : WIndex) (a t r : Nat) : WIndex :=
  match alookup a idx with
  | none => ainsert a [(t, r)] idx
  | some m => ainsert a (ainsert t r m) idx

/-- Well-formedness of the nested-dict model: unique keys at both levels and
no empty inner dictionaries (Python deletes the outer key instead). -/
def IdxWF (idx : WIndex) : Prop :=
  (akeys idx).Nodup ∧ ∀ p ∈ idx, (akeys p.2).Nodup ∧ p.2 ≠ []

section MoreAssoc

variable {α β : Type} [DecidableEq α]

theorem alookup_mem (k : α) (l : List (α × β)) (v : β)
    (h : alookup k l = some v) : (k, v) ∈ l := by
  induction l with
  | nil => simp [alookup] at h
  | cons p rest ih =>
    by_cases hh : p.1 = k
    · rw [alookup_cons, if_pos hh] at h
      have hv : p.2 = v := Option.some_injective _ h
      have : p = (k, v) := by
        cases p
        simp only at hh hv
        rw [hh, hv]
      exact this ▸ List.mem_cons_self p rest
    · rw [alookup_cons, if_neg hh] at h
      exact List.mem_cons_of_mem p (ih h)

theorem ainsert_ne_nil (k : α) (v : β) (l : List (α × β)) : ainsert k v l ≠ [] := by
  cases l with
  | nil => simp [ainsert]
  | cons p rest => by_cases h : p.1 = k <;> simp [ainsert, h]

end MoreAssoc

section IdxLemmas

theorem idxWF_inner (idx : WIndex) (a : Nat) (m : IdxInner) (hWF : IdxWF idx)
    (h : alookup a idx = some m) : (akeys m).Nodup ∧ m ≠ [] :=
  hWF.2 (a, m) (alookup_mem a idx m h)

theorem idxRank_remove_self (idx : WIndex) (a t : Nat) (hWF : IdxWF idx) :
    idxRank (removeAddrToken idx a t) a t = none := by
  unfold removeAddrToken
  cases hl : alookup a idx with
  | none => simp [idxRank, hl]
  | some m =>
    have hin := idxWF_inner idx a m hWF hl
    by_cases hemp : aerase t m = []
    · simp only [if_pos hemp]
      simp [idxRank, aerase_lookup_self a idx hWF.1]
    · simp only [if_neg hemp]
      simp [idxRank, ainsert_lookup_self, aerase_lookup_self t m hin.1]

theorem idxRank_remove_other (idx : WIndex) (a t a' t' : Nat) (hWF : IdxWF idx)
    (hne : a' ≠ a ∨ t' ≠ t) :
    idxRank (removeAddrToken idx a t) a' t' = idxRank idx a' t' := by
  unfold removeAddrToken
  cases hl : alookup a idx with
  | none => rfl
  | some m =>
    by_cases ha : a' = a
    · subst ha
      rcases hne with h1 | h2
      · exact absurd rfl h1
      · by_cases hemp : aerase t m = []
        · simp only [if_pos hemp]
          have hmt' : alookup t' m = none := by
            have := aerase_lookup_other t t' m h2
            rw [hemp] at this
            exact this.symm
          simp [idxRank, aerase_lookup_self a' idx hWF.1, hl, hmt']
        · simp only [if_neg hemp]
          simp [idxRank, ainsert_lookup_self, hl, aerase_lookup_other t t' m h2]
    · by_cases hemp : aerase t m = []
      · simp only [if_pos hemp]
        simp [idxRank, aerase_lookup_other a a' idx ha]
      · simp only [if_neg hemp]
        simp [idxRank, ainsert_lookup_other a a' _ idx ha]

theorem removeAddrToken_WF (idx : WIndex) (a t : Nat) (hWF : IdxWF idx) :
    IdxWF (removeAddrToken idx a t) := by
  unfold removeAddrToken
  cases hl : alookup a idx with
  | none => exact hWF
  | some m =>
    have hin := idxWF_inner idx a m hWF hl
    by_cases hemp : aerase t m = []
    · simp only [if_pos hemp]
      refine ⟨akeys_aerase_nodup a idx hWF.1, ?_⟩
      intro p hp
      exact hWF.2 p (mem_aerase a idx p hp)
    · simp only [if_neg hemp]
      refine ⟨akeys_ainsert_nodup a _ idx hWF.1, ?_⟩
      intro p hp
      rcases mem_ainsert a _ idx p hp with h1 | h2
      · rw [h1]
        exact ⟨akeys_aerase_nodup t m hin.1, hemp⟩
      · exact hWF.2 p h2

theorem idxRank_insert_self (idx : WIndex) (a t r : Nat) :
    idxRank (insertAddrToken idx a t r) a t = some r := by
  unfold insertAddrToken
  cases hl : alookup a idx with
  | none => simp [idxRank, ainsert_lookup_self, alookup]
  | some m => simp [idxRank, ainsert_lookup_self]

theorem idxRank_insert_other (idx : WIndex) (a t r a' t' : Nat)
    (hne : a' ≠ a ∨ t' ≠ t) :
    idxRank (insertAddrToken idx a t r) a' t' = idxRank idx a' t' := by
  unfold insertAddrToken
  cases hl : alookup a idx with
  | none =>
    by_cases ha : a' = a
    · subst ha
      rcases hne with h1 | h2
      · exact absurd rfl h1
      · have h2s : ¬ t = t' := fun h => h2 h.symm
        simp [idxRank, ainsert_lookup_self, hl, alookup, h2s]
    · simp [idxRank, ainsert_lookup_other a a' _ idx ha]
  | some m =>
    by_cases ha : a' = a
    · subst ha
      rcases hne with h1 | h2
      · exact absurd rfl h1
      · simp [idxRank, ainsert_lookup_self, hl, ainsert_lookup_other t t' r m h2]
    · simp [idxRank, ainsert_lookup_other a a' _ idx ha]

theorem insertAddrToken_WF (idx : WIndex) (a t r : Nat) (hWF : IdxWF idx) :
    IdxWF (insertAddrToken idx a t r) := by
  unfold insertAddrToken
  cases hl : alookup a idx with
  | none =>
    refine ⟨akeys_ainsert_nodup a _ idx hWF.1, ?_⟩
    intro p hp
    rcases mem_ainsert a _ idx p hp with h1 | h2
    · rw [h1]
      exact ⟨by simp [akeys], by simp⟩
    · exact hWF.2 p h2
  | some m =>
    have hin := idxWF_inner idx a m hWF hl
    refine ⟨akeys_ainsert_nodup a _ idx hWF.1, ?_⟩
    intro p hp
    rcases mem_ainsert a _ idx p hp with h1 | h2
    · rw [h1]
      exact ⟨akeys_ainsert_nodup t r m hin.1, ainsert_ne_nil t r m⟩
    · exact hWF.2 p h2

end IdxLemmas

/-! ### Removal / insertion loops of `_update_token_whitelist` -/

/-- The removal loop: `for addr in old_whitelist: ...` (lines 633-637). -/
def removeFold (idx : WIndex) (t : Nat) (oldW : List Nat) : WIndex :=
  oldW.foldl (fun i a => removeAddrToken i a t) idx

/-- Rank bookkeeping for the addition loop: `temp_details[addr]["rank"]`. -/
structure WhaleDet where
  rank : Nat
  balance : ℚ
deriving Repr, DecidableEq

def rankOf (dets : List (Nat × WhaleDet)) (a : Nat) : Nat :=
  match alookup a dets with
  | some d => d.rank
  | none => 0

/-- The addition loop: `for addr in temp_whitelist: ...` (lines 640-643). -/
def insertFold (idx : WIndex) (t : Nat) (newW : List Nat)
    (dets : List (Nat × WhaleDet)) : WIndex :=
  newW.foldl (fun i a => insertAddrToken i a t (rankOf dets a)) idx

section FoldLemmas

theorem removeFold_WF (t : Nat) (oldW : List Nat) :
    ∀ idx : WIndex, IdxWF idx → IdxWF (removeFold idx t oldW) := by
  induction oldW with
  | nil => intro idx h; exact h
  | cons a rest ih =>
    intro idx h
    exact ih (removeAddrToken idx a t) (removeAddrToken_WF idx a t h)

theorem insertFold_WF (t : Nat) (newW : List Nat) (dets : List (Nat × WhaleDet)) :
    ∀ idx : WIndex, IdxWF idx → IdxWF (insertFold idx t newW dets) := by
  induction newW with
  | nil => intro idx h; exact h
  | cons a rest ih =>
    intro idx h
    exact ih (insertAddrToken idx a t (rankOf dets a))
      (insertAddrToken_WF idx a t (rankOf dets a) h)

theorem idxRank_removeFold (t : Nat) (oldW : List Nat) (a' t' : Nat) :
    ∀ idx : WIndex, IdxWF idx →
    idxRank (removeFold idx t oldW) a' t' =
      if t' = t ∧ a' ∈ oldW then none else idxRank idx a' t' := by
  induction oldW with
  | nil =>
    intro idx _
    simp [removeFold]
  | cons a rest ih =>
    intro idx hWF
    have step : removeFold idx t (a :: rest) = removeFold (removeAddrToken idx a t) t rest := rfl
    rw [step, ih (removeAddrToken idx a t) (removeAddrToken_WF idx a t hWF)]
    by_cases hcond : t' = t ∧ a' ∈ rest
    · rw [if_pos hcond, if_pos ⟨hcond.1, List.mem_cons_of_mem a hcond.2⟩]
    · rw [if_neg hcond]
      by_cases hself : a' = a ∧ t' = t
      · rw [if_pos ⟨hself.2, hself.1 ▸ List.mem_cons_self a rest⟩]
        rw [hself.1, hself.2]
        exact idxRank_remove_self idx a t hWF
      · have hor : a' ≠ a ∨ t' ≠ t := by
          by_cases h1 : a' = a
          · exact Or.inr (fun h2 => hself ⟨h1, h2⟩)
          · exact Or.inl h1
        rw [idxRank_remove_other idx a t a' t' hWF hor]
        have : ¬ (t' = t ∧ a' ∈ a :: rest) := by
          intro ⟨he, hm⟩
          rcases List.mem_cons.mp hm with h1 | h2
          · exact hself ⟨h1, he⟩
          · exact hcond ⟨he, h2⟩
        rw [if_neg this]

theorem idxRank_insertFold (t : Nat) (newW : List Nat) (dets : List (Nat × WhaleDet))
    (a' t' : Nat) :
    ∀ idx : WIndex,
    idxRank (insertFold idx t newW dets) a' t' =
      if t' = t ∧ a' ∈ newW then some (rankOf dets a') else idxRank idx a' t' := by
  induction newW with
  | nil =>
    intro idx
    simp [insertFold]
  | cons a rest ih =>
    intro idx
    have step : insertFold idx t (a :: rest) dets =
        insertFold (insertAddrToken idx a t (rankOf dets a)) t rest dets := rfl
    rw [step, ih (insertAddrToken idx a t (rankOf dets a))]
    by_cases hcond : t' = t ∧ a' ∈ rest
    · rw [if_pos hcond, if_pos ⟨hcond.1, List.mem_cons_of_mem a hcond.2⟩]
    · rw [if_neg hcond]
      by_cases hself : a' = a ∧ t' = t
      · rw [if_pos ⟨hself.2, hself.1 ▸ List.mem_cons_self a rest⟩]
        rw [hself.1, hself.2]
        exact idxRank_insert_self idx a t (rankOf dets a)
      · have hor : a' ≠ a ∨ t' ≠ t := by
          by_cases h1 : a' = a
          · exact Or.inr (fun h2 => hself ⟨h1, h2⟩)
          · exact Or.inl h1
        rw [idxRank_insert_other idx a t (rankOf dets a) a' t' hor]
        have : ¬ (t' = t ∧ a' ∈ a :: rest) := by
          intro ⟨he, hm⟩
          rcases List.mem_cons.mp hm with h1 | h2
          · exact hself ⟨h1, he⟩
          · exact hcond ⟨he, h2⟩
        rw [if_neg this]

theorem idx_no_empty_inner (idx : WIndex) (hWF : IdxWF idx) :
    ∀ p ∈ idx, p.2 ≠ [] := fun p hp => (hWF.2 p hp).2

end FoldLemmas

/-! ### Token state and the install procedure (`main.py` 95-110, 606-654) -/

structure TokenInfo where
  address : Nat
  top_n : Nat
  threshold_usd : ℚ
  chain : String
  symbol : String
  decimals : Nat
  price : ℚ
  whitelist : List Nat
  whale_details : List (Nat × WhaleDet)
  last_whale_update : ℚ
  chainbase_degraded : Bool
deriving Repr, DecidableEq

structure MonitorState where
  tokens : List (Nat × TokenInfo)
  global_whale_index : WIndex
  processed_txs : LRUCache
  chain_latest_blocks : List (String × Nat)
  errors : Nat
deriving Repr, DecidableEq

/-- `temp_whitelist = set(); temp_whitelist.add(addr)` over the tuples
(lines 617-622); a Python set keeps first-insertion order in our model. -/
def buildWhitelist (tuples : List (Nat × Nat × ℚ)) : List Nat :=
  tuples.foldl (fun acc tr => if tr.1 ∈ acc then acc else acc ++ [tr.1]) []

/-- `temp_details[addr] = {"rank": rank, "balance": balance}` (line 623). -/
def buildDetails (tuples : List (Nat × Nat × ℚ)) : List (Nat × WhaleDet) :=
  tuples.foldl (fun acc tr => ainsert tr.1 ⟨tr.2.1, tr.2.2⟩ acc) []

/-- The locked index update of `_update_token_whitelist` (lines 631-643):
first the removal loop over the old whitelist, then the addition loop. -/
def updateIndex (idx : WIndex) (tok : Nat) (oldW newW : List Nat)
    (dets : List (Nat × WhaleDet)) : WIndex :=
  insertFold (removeFold idx tok oldW) tok newW dets

/-- `_update_token_whitelist` (lines 606-654): replace the token's
whitelist/details and update the global index for it.  `now` stands for
`time.time()`. -/
def update_token_whitelist (st : MonitorState) (tok : Nat)
    (tuples : List (Nat × Nat × ℚ)) (now : ℚ) : MonitorState :=
  match alookup tok st.tokens with
  | none => st
  | some ti =>
    { st with
      tokens := ainsert tok
        { ti with whitelist := buildWhitelist tuples,
                  whale_details := buildDetails tuples,
                  last_whale_update := now } st.tokens,
      global_whale_index :=
        updateIndex st.global_whale_index tok ti.whitelist (buildWhitelist tuples)
          (buildDetails tuples) }

/-- The observable intermediate states of `_update_token_whitelist`, in source
order: the whitelist/details assignment (lines 625-628) happens first, and only
afterwards is the index lock taken and the global index updated (lines 631-643). -/
def update_token_whitelist_trace (st : MonitorState) (tok : Nat)
    (tuples : List (Nat × Nat × ℚ)) (now : ℚ) : List MonitorState :=
  match alookup tok st.tokens with
  | none => [st]
  | some ti =>
    [st,
     { st with
       tokens := ainsert tok
         { ti with whitelist := buildWhitelist tuples,
                   whale_details := buildDetails tuples,
                   last_whale_update := now } st.tokens },
     update_token_whitelist st tok tuples now]

/-- The WhaleIndex consistency invariant of the spec: every `(addr, token)`
pair present in the index points at a monitored token whose whitelist holds
the address, with matching rank in the token's whale details. -/
def IdxConsistent (tokens : List (Nat × TokenInfo)) (idx : WIndex) : Prop :=
  ∀ a t r, idxRank idx a t = some r →
    ∃ ti, alookup t tokens = some ti ∧ a ∈ ti.whitelist ∧
      ∃ d, alookup a ti.whale_details = some d ∧ d.rank = r

section BuildLemmas

theorem mem_wl_fold (tuples : List (Nat × Nat × ℚ)) (a : Nat) :
    ∀ acc : List Nat,
      (a ∈ tuples.foldl (fun acc tr => if tr.1 ∈ acc then acc else acc ++ [tr.1]) acc
        ↔ a ∈ acc ∨ a ∈ tuples.map (fun tr => tr.1)) := by
  induction tuples with
  | nil => intro acc; simp
  | cons tr rest ih =>
    intro acc
    simp only [List.foldl_cons, List.map_cons, List.mem_cons]
    rw [ih]
    by_cases h : tr.1 ∈ acc
    · rw [if_pos h]
      constructor
      · intro hx; tauto
      · intro hx
        rcases hx with hx | hx | hx
        · exact Or.inl hx
        · exact Or.inl (hx ▸ h)
        · exact Or.inr hx
    · rw [if_neg h]
      constructor
      · intro hx
        rcases hx with hx | hx
        · rcases List.mem_append.mp hx with h1 | h2
          · exact Or.inl h1
          · exact Or.inr (Or.inl (List.mem_singleton.mp h2))
        · exact Or.inr (Or.inr hx)
      · intro hx
        rcases hx with hx | hx | hx
        · exact Or.inl (List.mem_append.mpr (Or.inl hx))
        · exact Or.inl (List.mem_append.mpr (Or.inr (List.mem_singleton.mpr hx)))
        · exact Or.inr hx

theorem mem_buildWhitelist (tuples : List (Nat × Nat × ℚ)) (a : Nat) :
    a ∈ buildWhitelist tuples ↔ a ∈ tuples.map (fun tr => tr.1) := by
  unfold buildWhitelist
  rw [mem_wl_fold]
  simp

theorem buildWhitelist_nodup (tuples : List (Nat × Nat × ℚ)) :
    (buildWhitelist tuples).Nodup := by
  unfold buildWhitelist
  have main : ∀ (tl : List (Nat × Nat × ℚ)) (acc : List Nat), acc.Nodup →
      (tl.foldl (fun acc tr => if tr.1 ∈ acc then acc else acc ++ [tr.1]) acc).Nodup := by
    intro tl
    induction tl with
    | nil => intro acc h; exact h
    | cons tr rest ih =>
      intro acc h
      simp only [List.foldl_cons]
      by_cases hm : tr.1 ∈ acc
      · rw [if_pos hm]; exact ih acc h
      · rw [if_neg hm]
        exact ih _ (nodup_append_singleton acc tr.1 h hm)
  exact main tuples [] List.nodup_nil

theorem details_fold_lookup (tuples : List (Nat × Nat × ℚ)) (a : Nat) :
    ∀ acc : List (Nat × WhaleDet),
      ((alookup a (tuples.foldl (fun acc tr => ainsert tr.1 ⟨tr.2.1, tr.2.2⟩ acc) acc)).isSome
        ↔ (alookup a acc).isSome ∨ a ∈ tuples.map (fun tr => tr.1)) := by
  induction tuples with
  | nil => intro acc; simp
  | cons tr rest ih =>
    intro acc
    simp only [List.foldl_cons, List.map_cons, List.mem_cons]
    rw [ih]
    by_cases h : tr.1 = a
    · subst h
      simp [ainsert_lookup_self]
    · rw [ainsert_lookup_other tr.1 a _ acc (fun hc => h hc.symm)]
      constructor
      · intro hx; tauto
      · intro hx
        rcases hx with hx | hx | hx
        · exact Or.inl hx
        · exact absurd hx.symm h
        · exact Or.inr hx

theorem buildDetails_lookup_of_mem (tuples : List (Nat × Nat × ℚ)) (a : Nat)
    (ha : a ∈ buildWhitelist tuples) :
    ∃ d, alookup a (buildDetails tuples) = some d := by
  have h1 : a ∈ tuples.map (fun tr => tr.1) := (mem_buildWhitelist tuples a).mp ha
  have h2 := (details_fold_lookup tuples a []).mpr (Or.inr h1)
  unfold buildDetails
  exact Option.isSome_iff_exists.mp h2

end BuildLemmas

section UpdateIndexLemmas

theorem updateIndex_WF (idx : WIndex) (tok : Nat) (oldW newW : List Nat)
    (dets : List (Nat × WhaleDet)) (hWF : IdxWF idx) :
    IdxWF (updateIndex idx tok oldW newW dets) :=
  insertFold_WF tok newW dets _ (removeFold_WF tok oldW idx hWF)

theorem idxRank_updateIndex (idx : WIndex) (tok : Nat) (oldW newW : List Nat)
    (dets : List (Nat × WhaleDet)) (hWF : IdxWF idx) (a t : Nat) :
    idxRank (updateIndex idx tok oldW newW dets) a t =
      if t = tok ∧ a ∈ newW then some (rankOf dets a)
      else if t = tok ∧ a ∈ oldW then none
      else idxRank idx a t := by
  unfold updateIndex
  rw [idxRank_insertFold tok newW dets a t (removeFold idx tok oldW)]
  by_cases h1 : t = tok ∧ a ∈ newW
  · rw [if_pos h1, if_pos h1]
  · rw [if_neg h1, if_neg h1, idxRank_removeFold tok oldW a t idx hWF]

end UpdateIndexLemmas

/-! ### Log classification (`main.py` 752-868, `process_logs_batch`)

A topic word is a 256-bit value; the decoded party address is its low
160 bits (`"0x" + topic.hex()[-40:]`).  Checksum normalisation does not
change the numeric value of an address, so it is the identity here. -/

def TRANSFER_TOPIC : Nat := 0xddf252ad1be2c89b69c2b068fc378daa952ba7f163c4a11628f55a4df523b3ef

def ZERO_ADDRESS : Nat := 0

def DEAD_ADDRESS : Nat := 0xdEaD

def TWO160 : Nat := 2 ^ 160

structure LogRec where
  topics : List Nat
  transactionHash : Nat
  address : Nat
  data : Nat
  blockNumber : Nat
deriving Repr, DecidableEq

structure AlertRec where
  token : Nat
  whale_addr : Nat
  rank : Nat
  event_type : String
  amount : ℚ
  usd_value : ℚ
  tx_hash : Nat
  block_num : Nat
deriving Repr, DecidableEq

def logFrom (l : LogRec) : Nat := ((l.topics.get? 1).getD 0) % TWO160

def logTo (l : LogRec) : Nat := ((l.topics.get? 2).getD 0) % TWO160

def logAmount (ti : TokenInfo) (l : LogRec) : ℚ := (l.data : ℚ) / 10 ^ ti.decimals

def logUsd (ti : TokenInfo) (l : LogRec) : ℚ := logAmount ti l * ti.price

/-- Lines 811-836: under the index lock, check `from` first then `to` against
the index restricted to this token; `from` wins ties. -/
def classifyHit (idx : WIndex) (tok fromA toA : Nat) (isMint isBurn : Bool) :
    Option (Nat × Nat × String) :=
  match idxRank idx fromA tok with
  | some r => some (fromA, r, if isBurn then "burn" else "sell")
  | none =>
    match idxRank idx toA tok with
    | some r => some (toA, r, if isMint then "mint" else "buy")
    | none => none

/-- The per-log body of `process_logs_batch` (lines 771-860). -/
def processLog (st : MonitorState) (chainName : String) (l : LogRec) :
    MonitorState × List AlertRec :=
  if l.topics.length < 3 then (st, [])
  else if (st.processed_txs.containsBump l.transactionHash).1 then
    ({ st with processed_txs := (st.processed_txs.containsBump l.transactionHash).2 }, [])
  else
    match alookup l.address st.tokens with
    | none => (st, [])
    | some ti =>
      if ti.chain ≠ chainName then (st, [])
      else
        match classifyHit st.global_whale_index l.address (logFrom l) (logTo l)
            (decide (logFrom l = ZERO_ADDRESS))
            (decide (logTo l = ZERO_ADDRESS ∨ logTo l = DEAD_ADDRESS)) with
        | none => (st, [])
        | some hit =>
          ({ st with processed_txs := (st.processed_txs.add l.transactionHash).1 },
           if ti.threshold_usd ≤ logUsd ti l then
             [⟨l.address, hit.1, hit.2.1, hit.2.2, logAmount ti l, logUsd ti l,
               l.transactionHash, l.blockNumber⟩]
           else [])

/-- `process_logs_batch`: fold the per-log body over the batch, accumulating
the alerts that are sent after the loop (lines 867-868). -/
def processLogsBatch (st : MonitorState) (chainName : String) (logs : List LogRec) :
    MonitorState × List AlertRec :=
  logs.foldl (fun acc l =>
    ((processLog acc.1 chainName l).1, acc.2 ++ (processLog acc.1 chainName l).2))
    (st, [])

/-! ### Per-chain poll tick (`main.py` 719-744 and 1165-1198)

`get_batch_logs_for_chain` swallows any RPC failure: it logs, counts the
error and returns `[]` (lines 741-744).  `fetchRes = none` models a failing
`eth_getLogs` request. -/

def get_batch_logs_for_chain (st : MonitorState) (fetchRes : Option (List LogRec)) :
    MonitorState × List LogRec :=
  match fetchRes with
  | some logs => (st, logs)
  | none => ({ st with errors := st.errors + 1 }, [])

/-- One iteration of the per-chain body of the main loop (lines 1166-1194):
read the head, compare with `chain_latest_blocks[chain]`, fetch the batched
logs for `[last+1, head]`, process them if non-empty, then store the head. -/
def pollChainTick (st : MonitorState) (chainName : String) (head : Nat)
    (fetchRes : Option (List LogRec)) : MonitorState × List AlertRec :=
  match alookup chainName st.chain_latest_blocks with
  | none => (st, [])
  | some lastB =>
    if lastB < head then
      ({ (if 0 < (get_batch_logs_for_chain st fetchRes).2.length then
            (processLogsBatch (get_batch_logs_for_chain st fetchRes).1 chainName
              (get_batch_logs_for_chain st fetchRes).2)
          else ((get_batch_logs_for_chain st fetchRes).1, [])).1 with
          chain_latest_blocks := ainsert chainName head
            (if 0 < (get_batch_logs_for_chain st fetchRes).2.length then
              (processLogsBatch (get_batch_logs_for_chain st fetchRes).1 chainName
                (get_batch_logs_for_chain st fetchRes).2)
            else ((get_batch_logs_for_chain st fetchRes).1, [])).1.chain_latest_blocks },
       (if 0 < (get_batch_logs_for_chain st fetchRes).2.length then
          (processLogsBatch (get_batch_logs_for_chain st fetchRes).1 chainName
            (get_batch_logs_for_chain st fetchRes).2)
        else ((get_batch_logs_for_chain st fetchRes).1, [])).2)
    else (st, [])

/-! ### Whale refresh from providers (`main.py` 349-430, 524-579) -/

/-- `Config.IGNORE_LIST`: the zero and dead addresses. -/
def ignoreList : List Nat := [ZERO_ADDRESS, DEAD_ADDRESS]

/-- The filtering loop shared by `_fetch_from_chainbase` (lines 395-407) and
`_fetch_from_ethplorer` (lines 557-567): skip ignore-list addresses, assign
ranks starting at 1, stop once the rank exceeds `top_n`. -/
def buildNewList : List (Nat × ℚ) → Nat → Nat → List (Nat × Nat × ℚ)
  | [], _, _ => []
  | (a, b) :: rest, topN, rank =>
    if a ∈ ignoreList then buildNewList rest topN rank
    else if topN < rank then []
    else (a, rank, b) :: buildNewList rest topN (rank + 1)

/-- `_fetch_from_chainbase` after a 200 response: `rows` is the decoded
`data` array as (address value, balance) pairs.  Empty data, or a list whose
filtered result is empty, is reported as failure without installing anything. -/
def fetch_from_chainbase (st : MonitorState) (tok : Nat) (rows : List (Nat × ℚ))
    (now : ℚ) : MonitorState × Bool :=
  match alookup tok st.tokens with
  | none => (st, false)
  | some ti =>
    if rows.isEmpty then (st, false)
    else if (buildNewList rows ti.top_n 1).isEmpty then (st, false)
    else (update_token_whitelist st tok (buildNewList rows ti.top_n 1) now, true)

/-- `_fetch_from_ethplorer`: identical filtering, but only on the ethereum
chain (lines 527-529). -/
def fetch_from_ethplorer (st : MonitorState) (tok : Nat) (rows : List (Nat × ℚ))
    (now : ℚ) : MonitorState × Bool :=
  match alookup tok st.tokens with
  | none => (st, false)
  | some ti =>
    if ti.chain ≠ "ethereum" then (st, false)
    else if rows.isEmpty then (st, false)
    else if (buildNewList rows ti.top_n 1).isEmpty then (st, false)
    else (update_token_whitelist st tok (buildNewList rows ti.top_n 1) now, true)

/-! ### Retry decorator (`main.py` 64-91, `with_retry`)

`f i` is the outcome of attempt `i` (0-based).  The result carries the list
of back-off delays actually slept, in order; a raised exception is
`Except.error (some e)` with `e` the last attempt's exception. -/

def retryGo {E A : Type} (f : Nat → Except E A) (base : ℚ) :
    Nat → Nat → Option E → (Except (Option E) A) × List ℚ
  | 0, _, last => (.error last, [])
  | r + 1, attempt, _ =>
    match f attempt with
    | .ok a => (.ok a, [])
    | .error e =>
      if r = 0 then (.error (some e), [])
      else
        ((retryGo f base r (attempt + 1) (some e)).1,
          base * 2 ^ attempt :: (retryGo f base r (attempt + 1) (some e)).2)

def with_retry {E A : Type} (maxRetries : Nat) (base : ℚ) (f : Nat → Except E A) :
    (Except (Option E) A) × List ℚ :=
  retryGo f base maxRetries 0 none

/-! ### On-disk holder cache (`cache.py`, class `WhaleCache`)

The directory is a string-keyed store; `cacheFileKey` is `_get_cache_path`:
lowercase the address and strip the `0x`. -/

structure HolderRec where
  address : String
  rank : Nat
  balance : ℚ
  readableBalance : ℚ
deriving Repr, DecidableEq

structure CacheDoc where
  token_address : String
  symbol : String
  decimals : Nat
  updated_at : ℚ
  source : String
  holders_count : Nat
  holders : List HolderRec
deriving Repr, DecidableEq

abbrev CacheStore := List (String × CacheDoc)

def cacheFileKey (tokenAddress : String) : String :=
  (tokenAddress.toLower).replace "0x" ""

def WhaleCache.save (store : CacheStore) (now : ℚ) (token_address : String)
    (holders : List (String × Nat × ℚ)) (symbol : String) (source : String)
    (decimals : Nat) : CacheStore :=
  ainsert (cacheFileKey token_address)
    { token_address := token_address.toLower,
      symbol := symbol,
      decimals := decimals,
      updated_at := now,
      source := source,
      holders_count := holders.length,
      holders := holders.map (fun h =>
        { address := h.1, rank := h.2.1, balance := h.2.2,
          readableBalance := h.2.2 / 10 ^ decimals }) } store

def WhaleCache.load (store : CacheStore) (now : ℚ) (token_address : String)
    (max_age_seconds : Option ℚ) : Option CacheDoc :=
  match alookup (cacheFileKey token_address) store with
  | none => none
  | some doc =>
    match max_age_seconds with
    | some maxAge => if maxAge < now - doc.updated_at then none else some doc
    | none => some doc

def WhaleCache.load_holders (store : CacheStore) (now : ℚ) (token_address : String)
    (max_age_seconds : Option ℚ) : Option (List (String × Nat × ℚ)) :=
  match WhaleCache.load store now token_address max_age_seconds with
  | none => none
  | some doc => some (doc.holders.map (fun h => (h.address, h.rank, h.balance)))

/-! ### Config token parsing (`config.py` 231-286, `Config.get_target_tokens`) -/

def supportedChains : List String := ["ethereum", "bsc", "polygon", "arbitrum", "base"]

def DEFAULT_TOP_N : Nat := 100

def DEFAULT_THRESHOLD_USD : ℚ := 100

/-- The three accepted shapes of a `TARGET_TOKENS` entry: bare address
string, `(address, chain)` tuple (`item[1] if len(item) > 1`), or a dict
with optional fields and their defaults. -/
inductive TargetItem
  | strAddr (addr : String)
  | tupAddr (addr : String) (chain : Option String)
  | dictAddr (address : Option String) (chain : Option String)
      (top_n : Option Nat) (threshold_usd : Option ℚ)
deriving Repr, DecidableEq

structure TokenCfg where
  top_n : Nat
  threshold_usd : ℚ
  chain : String
deriving Repr, DecidableEq

/-- Normalisation of one parsed entry: an unsupported chain silently becomes
"ethereum" (lines 271-273); an empty or non-`0x` address drops the entry
(lines 276-278). -/
def normEntry (addr chain : String) (topn : Nat) (thr : ℚ) : Option (String × TokenCfg) :=
  if addr = "" ∨ ¬ addr.startsWith "0x" then none
  else some (addr, ⟨topn, thr, if chain ∈ supportedChains then chain else "ethereum"⟩)

def parseItem : TargetItem → Option (String × TokenCfg)
  | .strAddr addr => normEntry addr "ethereum" DEFAULT_TOP_N DEFAULT_THRESHOLD_USD
  | .tupAddr addr chain? =>
      normEntry addr (chain?.getD "ethereum") DEFAULT_TOP_N DEFAULT_THRESHOLD_USD
  | .dictAddr addr? chain? topn? thr? =>
      normEntry (addr?.getD "") (chain?.getD "ethereum") (topn?.getD DEFAULT_TOP_N)
        (thr?.getD DEFAULT_THRESHOLD_USD)

def get_target_tokens (items : List TargetItem) : List (String × TokenCfg) :=
  items.foldl (fun acc item =>
    match parseItem item with
    | none => acc
    | some p => ainsert p.1 p.2 acc) []

/-! ### Concrete fixtures used by witnesses and counterexamples -/

def exTokenA : TokenInfo :=
  { address := 1, top_n := 10, threshold_usd := 1, chain := "c", symbol := "A",
    decimals := 0, price := 1, whitelist := [100], whale_details := [(100, ⟨1, 0⟩)],
    last_whale_update := 0, chainbase_degraded := false }

def exTokenB : TokenInfo :=
  { exTokenA with
      address := 2, symbol := "B", whitelist := [200],
      whale_details := [(200, ⟨2, 0⟩)] }

def exState : MonitorState :=
  { tokens := [(1, exTokenA), (2, exTokenB)],
    global_whale_index := [(100, [(1, 1)]), (200, [(2, 2)])],
    processed_txs := LRUCache.emptyCache 10,
    chain_latest_blocks := [("c", 5)], errors := 0 }

def exLog1 : LogRec :=
  { topics := [TRANSFER_TOPIC, 100, 300], transactionHash := 777, address := 1, data := 5,
    blockNumber := 9 }

def exLog2 : LogRec :=
  { topics := [TRANSFER_TOPIC, 200, 300], transactionHash := 777, address := 2, data := 5,
    blockNumber := 9 }

def exAlert1 : AlertRec :=
  { token := 1, whale_addr := 100, rank := 1, event_type := "sell", amount := 5,
    usd_value := 5, tx_hash := 777, block_num := 9 }

/-! ### Claim C1 -/

/-- C1 counterexample: at a concrete state with `last_block = 5` and head
`8`, a failing `get_logs` request is counted and processing is skipped, but
`chain_latest_blocks` is advanced to 8 instead of staying at 5 — the blocks
5..8 are not re-queried on the next tick. -/
theorem claim_C1_counterexample :
    alookup "c" exState.chain_latest_blocks = some 5 ∧
    (pollChainTick exState "c" 8 none).1.chain_latest_blocks = [("c", 8)] ∧
    alookup "c" (pollChainTick exState "c" 8 none).1.chain_latest_blocks ≠ some 5 ∧
    (pollChainTick exState "c" 8 none).1.errors = exState.errors + 1 ∧
    (pollChainTick exState "c" 8 none).2 = [] := by
  refine ⟨by decide, by decide, by decide, by decide, by decide⟩

/-- C1 (amended): on a poll tick where the head exceeds `last_block` and the
batched `get_logs` request fails, the error is counted and no log is
processed, but `last_block` for the chain is advanced to the head, so the
failed range is skipped rather than re-queried. -/
theorem claim_C1 (st : MonitorState) (chainName : String) (head lastB : Nat)
    (hlast : alookup chainName st.chain_latest_blocks = some lastB)
    (hlt : lastB < head) :
    pollChainTick st chainName head none =
      ({ st with errors := st.errors + 1,
                 chain_latest_blocks := ainsert chainName head st.chain_latest_blocks }, []) := by
  unfold pollChainTick
  rw [hlast]
  simp [hlt, get_batch_logs_for_chain]

/-- C1 witness. -/
theorem claim_C1_witness :
    alookup "c" exState.chain_latest_blocks = some 5 ∧ (5 : Nat) < 8 ∧
    pollChainTick exState "c" 8 none =
      ({ exState with errors := exState.errors + 1,
                      chain_latest_blocks := ainsert "c" 8 exState.chain_latest_blocks }, []) :=
  ⟨by decide, by decide, claim_C1 exState "c" 8 5 (by decide) (by decide)⟩

/-! ### Claim C3 -/

/-- The token record after the swap of lines 625-628: new whitelist, new
details, stamped update time. -/
def swappedToken (ti : TokenInfo) (tuples : List (Nat × Nat × ℚ)) (now : ℚ) : TokenInfo :=
  { ti with
      whitelist := buildWhitelist tuples,
      whale_details := buildDetails tuples,
      last_whale_update := now }

def exC3Tuples : List (Nat × Nat × ℚ) := [(20, 1, 5)]

def exC3NewTok : TokenInfo := swappedToken exTokenA exC3Tuples 0

def exC3Mid : MonitorState :=
  { exState with tokens := ainsert 1 exC3NewTok exState.tokens }

/-- C3 counterexample: during the install of whitelist `{20}` for token 1,
the trace of `_update_token_whitelist` reaches an intermediate state whose
token-1 whitelist is already the new set `[20]` while the global whale index
still holds the old entry `100 ↦ {1 ↦ 1}` — the assignment happens before
the index lock is taken, contradicting the claim. -/
theorem claim_C3_counterexample :
    ((update_token_whitelist_trace exState 1 exC3Tuples 0).get? 1).map
        (fun s => ((alookup 1 s.tokens).map TokenInfo.whitelist, s.global_whale_index))
      = some (some [20], [(100, [(1, 1)]), (200, [(2, 2)])]) ∧
    idxRank exState.global_whale_index 100 1 = some 1 ∧
    (100 : Nat) ∉ ([20] : List Nat) := by
  refine ⟨by decide, by decide, by decide⟩

/-- C3 (amended): `_update_token_whitelist` assigns `token.whitelist` and
`token.details` before acquiring the index lock, so every install that finds
the token passes through an intermediate state in which the token already
carries the new whitelist and details while the global whale index is still
the old one; only the final step installs the index update. -/
theorem claim_C3 (st : MonitorState) (tok : Nat) (ti : TokenInfo)
    (tuples : List (Nat × Nat × ℚ)) (now : ℚ)
    (htok : alookup tok st.tokens = some ti) :
    update_token_whitelist_trace st tok tuples now =
      [st, { st with tokens := ainsert tok (swappedToken ti tuples now) st.tokens },
       update_token_whitelist st tok tuples now] ∧
    ({ st with tokens := ainsert tok (swappedToken ti tuples now) st.tokens }).global_whale_index
      = st.global_whale_index ∧
    alookup tok (ainsert tok (swappedToken ti tuples now) st.tokens)
      = some (swappedToken ti tuples now) ∧
    (update_token_whitelist st tok tuples now).global_whale_index
      = updateIndex st.global_whale_index tok ti.whitelist (buildWhitelist tuples)
          (buildDetails tuples) := by
  unfold update_token_whitelist_trace update_token_whitelist swappedToken
  rw [htok]
  exact ⟨rfl, rfl, ainsert_lookup_self _ _ _, rfl⟩

/-- C3 witness. -/
theorem claim_C3_witness :
    alookup 1 exState.tokens = some exTokenA ∧
    (update_token_whitelist_trace exState 1 exC3Tuples 0 =
      [exState, exC3Mid, update_token_whitelist exState 1 exC3Tuples 0] ∧
     exC3Mid.global_whale_index = exState.global_whale_index ∧
     alookup 1 (ainsert 1 exC3NewTok exState.tokens) = some exC3NewTok ∧
     (update_token_whitelist exState 1 exC3Tuples 0).global_whale_index
       = updateIndex exState.global_whale_index 1 exTokenA.whitelist
           (buildWhitelist exC3Tuples) (buildDetails exC3Tuples)) :=
  ⟨by decide, claim_C3 exState 1 exTokenA exC3Tuples 0 (by decide)⟩

/-! ### Claim C5 -/

theorem buildNewList_ignored (rows : List (Nat × ℚ)) (topN : Nat)
    (hrows : ∀ r ∈ rows, r.1 ∈ ignoreList) :
    ∀ rank, buildNewList rows topN rank = [] := by
  induction rows with
  | nil => intro rank; rfl
  | cons r rest ih =>
    intro rank
    obtain ⟨a, b⟩ := r
    have ha : a ∈ ignoreList := by simpa using hrows (a, b) (List.mem_cons_self _ _)
    simp only [buildNewList, if_pos ha]
    exact ih (fun q hq => hrows q (List.mem_cons_of_mem _ hq)) rank

/-- C5 counterexample: at a concrete state where token 1 already has whale
100, a provider response consisting solely of the zero and dead addresses
does not install an empty whitelist — the fetch reports failure and the old
whitelist and index entry remain in place. -/
theorem claim_C5_counterexample :
    fetch_from_chainbase exState 1 [(0, 3), (57005, 4)] 0 = (exState, false) ∧
    (alookup 1 (fetch_from_chainbase exState 1 [(0, 3), (57005, 4)] 0).1.tokens).map
        TokenInfo.whitelist = some [100] ∧
    idxRank (fetch_from_chainbase exState 1 [(0, 3), (57005, 4)] 0).1.global_whale_index 100 1
      = some 1 ∧
    (0 : Nat) ∈ ignoreList ∧ (57005 : Nat) ∈ ignoreList := by
  refine ⟨by decide, by decide, by decide, by decide, by decide⟩

/-- C5 (amended): a provider response whose holder rows consist solely of
ignore-list addresses filters down to an empty list, so both fetch adapters
report failure and install nothing: the whole monitor state — including the
token's previous whitelist and its WhaleIndex entries — is left unchanged,
and the refresh falls through to the next source. -/
theorem claim_C5 (st : MonitorState) (tok : Nat) (rows : List (Nat × ℚ)) (now : ℚ)
    (hrows : ∀ r ∈ rows, r.1 ∈ ignoreList) :
    fetch_from_chainbase st tok rows now = (st, false) ∧
    fetch_from_ethplorer st tok rows now = (st, false) := by
  constructor
  · unfold fetch_from_chainbase
    cases htok : alookup tok st.tokens with
    | none => rfl
    | some ti =>
      have hempty : buildNewList rows ti.top_n 1 = [] :=
        buildNewList_ignored rows ti.top_n hrows 1
      cases rows with
      | nil => simp
      | cons r rest => simp [hempty]
  · unfold fetch_from_ethplorer
    cases htok : alookup tok st.tokens with
    | none => rfl
    | some ti =>
      have hempty : buildNewList rows ti.top_n 1 = [] :=
        buildNewList_ignored rows ti.top_n hrows 1
      cases rows with
      | nil => simp
      | cons r rest =>
        by_cases hchain : ti.chain = "ethereum" <;> simp [hchain, hempty]

/-- C5 witness. -/
theorem claim_C5_witness :
    (∀ r ∈ ([(0, 3), (57005, 4)] : List (Nat × ℚ)), r.1 ∈ ignoreList) ∧
    fetch_from_chainbase exState 1 [(0, 3), (57005, 4)] 0 = (exState, false) ∧
    fetch_from_ethplorer exState 1 [(0, 3), (57005, 4)] 0 = (exState, false) :=
  ⟨by decide, claim_C5 exState 1 [(0, 3), (57005, 4)] 0 (by decide)⟩

/-! ### Claim C4 -/

/-- C4: after a completed `_update_token_whitelist` install (any token, any
source), the global whale index is consistent: every `(addr, token)` pair in
it has `addr` in that token's whitelist with the index rank equal to the
rank in the token's whale details; addresses dropped from the old whitelist
have no index entry for the token any more; and no outer entry with an empty
inner mapping survives. -/
theorem claim_C4 (st : MonitorState) (tok : Nat) (ti : TokenInfo)
    (tuples : List (Nat × Nat × ℚ)) (now : ℚ)
    (hWF : IdxWF st.global_whale_index)
    (hcons : IdxConsistent st.tokens st.global_whale_index)
    (htok : alookup tok st.tokens = some ti) :
    IdxConsistent (update_token_whitelist st tok tuples now).tokens
        (update_token_whitelist st tok tuples now).global_whale_index ∧
    (∀ a, a ∈ ti.whitelist → a ∉ buildWhitelist tuples →
      idxRank (update_token_whitelist st tok tuples now).global_whale_index a tok = none) ∧
    (∀ p ∈ (update_token_whitelist st tok tuples now).global_whale_index, p.2 ≠ []) := by
  have hstate : update_token_whitelist st tok tuples now =
      { st with
          tokens := ainsert tok (swappedToken ti tuples now) st.tokens,
          global_whale_index := updateIndex st.global_whale_index tok ti.whitelist
            (buildWhitelist tuples) (buildDetails tuples) } := by
    unfold update_token_whitelist swappedToken
    rw [htok]
  rw [hstate]
  refine ⟨?_, ?_, ?_⟩
  · intro a t r h
    simp only at h ⊢
    rw [idxRank_updateIndex st.global_whale_index tok ti.whitelist (buildWhitelist tuples)
      (buildDetails tuples) hWF a t] at h
    by_cases h1 : t = tok ∧ a ∈ buildWhitelist tuples
    · rw [if_pos h1] at h
      obtain ⟨d, hd⟩ := buildDetails_lookup_of_mem tuples a h1.2
      refine ⟨swappedToken ti tuples now, ?_, ?_, d, ?_, ?_⟩
      · rw [h1.1]
        exact ainsert_lookup_self tok (swappedToken ti tuples now) st.tokens
      · show a ∈ (swappedToken ti tuples now).whitelist
        unfold swappedToken
        exact h1.2
      · show alookup a (swappedToken ti tuples now).whale_details = some d
        unfold swappedToken
        exact hd
      · have hr : rankOf (buildDetails tuples) a = r := Option.some_injective _ h
        rw [← hr]
        unfold rankOf
        rw [hd]
    · rw [if_neg h1] at h
      by_cases h2 : t = tok ∧ a ∈ ti.whitelist
      · rw [if_pos h2] at h
        exact absurd h (by simp)
      · rw [if_neg h2] at h
        obtain ⟨ti2, hlook, hmem, d, hd, hr⟩ := hcons a t r h
        by_cases ht : t = tok
        · subst ht
          rw [htok] at hlook
          have : ti2 = ti := (Option.some_injective _ hlook).symm
          subst this
          exact absurd ⟨rfl, hmem⟩ h2
        · refine ⟨ti2, ?_, hmem, d, hd, hr⟩
          rw [ainsert_lookup_other tok t (swappedToken ti tuples now) st.tokens ht]
          exact hlook
  · intro a hold hnew
    simp only
    rw [idxRank_updateIndex st.global_whale_index tok ti.whitelist (buildWhitelist tuples)
      (buildDetails tuples) hWF a tok]
    rw [if_neg (fun hc => hnew hc.2), if_pos ⟨rfl, hold⟩]
  · intro p hp
    simp only at hp
    exact idx_no_empty_inner _
      (updateIndex_WF st.global_whale_index tok ti.whitelist (buildWhitelist tuples)
        (buildDetails tuples) hWF) p hp

def exC4State : MonitorState :=
  { tokens := [(1, exTokenA)], global_whale_index := [],
    processed_txs := LRUCache.emptyCache 10, chain_latest_blocks := [("c", 5)], errors := 0 }

/-- C4 witness. -/
theorem claim_C4_witness :
    IdxWF exC4State.global_whale_index ∧
    IdxConsistent exC4State.tokens exC4State.global_whale_index ∧
    alookup 1 exC4State.tokens = some exTokenA ∧
    (IdxConsistent (update_token_whitelist exC4State 1 exC3Tuples 0).tokens
        (update_token_whitelist exC4State 1 exC3Tuples 0).global_whale_index ∧
     (∀ a, a ∈ exTokenA.whitelist → a ∉ buildWhitelist exC3Tuples →
       idxRank (update_token_whitelist exC4State 1 exC3Tuples 0).global_whale_index a 1 = none) ∧
     (∀ p ∈ (update_token_whitelist exC4State 1 exC3Tuples 0).global_whale_index, p.2 ≠ [])) := by
  have hwf : IdxWF exC4State.global_whale_index := ⟨List.nodup_nil, by simp [exC4State]⟩
  have hcons : IdxConsistent exC4State.tokens exC4State.global_whale_index := by
    intro a t r h
    simp [exC4State, idxRank] at h
  have htok : alookup 1 exC4State.tokens = some exTokenA := by decide
  exact ⟨hwf, hcons, htok, claim_C4 exC4State 1 exTokenA exC3Tuples 0 hwf hcons htok⟩

/-! ### Per-log processing lemmas -/

theorem processLog_cases (st : MonitorState) (c : String) (l : LogRec) :
    ((processLog st c l).2 = [] ∧ (processLog st c l).1.processed_txs = st.processed_txs) ∨
    ((processLog st c l).2 = [] ∧ (processLog st c l).1.processed_txs
        = (st.processed_txs.containsBump l.transactionHash).2) ∨
    ((processLog st c l).1.processed_txs = (st.processed_txs.add l.transactionHash).1) := by
  unfold processLog
  by_cases h1 : l.topics.length < 3
  · rw [if_pos h1]
    exact Or.inl ⟨rfl, rfl⟩
  · rw [if_neg h1]
    by_cases h2 : (st.processed_txs.containsBump l.transactionHash).1 = true
    · rw [if_pos h2]
      exact Or.inr (Or.inl ⟨rfl, rfl⟩)
    · rw [if_neg h2]
      cases htok : alookup l.address st.tokens with
      | none => exact Or.inl ⟨rfl, rfl⟩
      | some ti =>
        dsimp only
        by_cases h3 : ti.chain ≠ c
        · rw [if_pos h3]
          exact Or.inl ⟨rfl, rfl⟩
        · rw [if_neg h3]
          cases hhit : classifyHit st.global_whale_index l.address (logFrom l) (logTo l)
              (decide (logFrom l = ZERO_ADDRESS))
              (decide (logTo l = ZERO_ADDRESS ∨ logTo l = DEAD_ADDRESS)) with
          | none => exact Or.inl ⟨rfl, rfl⟩
          | some hit => exact Or.inr (Or.inr rfl)

theorem processLog_seen (st : MonitorState) (c : String) (l : LogRec)
    (hmem : l.transactionHash ∈ st.processed_txs.order) :
    (processLog st c l).2 = [] ∧
    l.transactionHash ∈ (processLog st c l).1.processed_txs.order := by
  unfold processLog
  by_cases h1 : l.topics.length < 3
  · rw [if_pos h1]
    exact ⟨rfl, hmem⟩
  · rw [if_neg h1]
    rw [lru_containsBump_mem st.processed_txs l.transactionHash hmem]
    constructor
    · simp
    · simp only [if_pos rfl]
      simpa using bumpList_mem_self st.processed_txs.order l.transactionHash

theorem processLog_alert_mem (st : MonitorState) (c : String) (l : LogRec)
    (hcap : 1 ≤ st.processed_txs.capacity)
    (halert : (processLog st c l).2 ≠ []) :
    l.transactionHash ∈ (processLog st c l).1.processed_txs.order := by
  rcases processLog_cases st c l with ⟨he, _⟩ | ⟨he, _⟩ | hp
  · exact absurd he halert
  · exact absurd he halert
  · rw [hp]
    exact lru_add_mem st.processed_txs l.transactionHash hcap

theorem processLogsBatch_acc (c : String) (ls : List LogRec) :
    ∀ (st : MonitorState) (acc : List AlertRec),
      ls.foldl (fun acc2 l => ((processLog acc2.1 c l).1, acc2.2 ++ (processLog acc2.1 c l).2))
        (st, acc)
      = ((processLogsBatch st c ls).1, acc ++ (processLogsBatch st c ls).2) := by
  induction ls with
  | nil =>
    intro st acc
    simp [processLogsBatch]
  | cons l rest ih =>
    intro st acc
    have lhs : (l :: rest).foldl
        (fun acc2 l2 => ((processLog acc2.1 c l2).1, acc2.2 ++ (processLog acc2.1 c l2).2))
        (st, acc)
        = rest.foldl
          (fun acc2 l2 => ((processLog acc2.1 c l2).1, acc2.2 ++ (processLog acc2.1 c l2).2))
          ((processLog st c l).1, acc ++ (processLog st c l).2) := rfl
    have rhs : processLogsBatch st c (l :: rest)
        = rest.foldl
          (fun acc2 l2 => ((processLog acc2.1 c l2).1, acc2.2 ++ (processLog acc2.1 c l2).2))
          ((processLog st c l).1, [] ++ (processLog st c l).2) := rfl
    rw [lhs, rhs, ih ((processLog st c l).1) (acc ++ (processLog st c l).2),
      ih ((processLog st c l).1) ([] ++ (processLog st c l).2)]
    simp [List.append_assoc]

theorem processLogsBatch_cons (st : MonitorState) (c : String) (l : LogRec)
    (rest : List LogRec) :
    processLogsBatch st c (l :: rest) =
      ((processLogsBatch (processLog st c l).1 c rest).1,
        (processLog st c l).2 ++ (processLogsBatch (processLog st c l).1 c rest).2) := by
  have rhs : processLogsBatch st c (l :: rest)
      = rest.foldl
        (fun acc2 l2 => ((processLog acc2.1 c l2).1, acc2.2 ++ (processLog acc2.1 c l2).2))
        ((processLog st c l).1, [] ++ (processLog st c l).2) := rfl
  rw [rhs, processLogsBatch_acc c rest ((processLog st c l).1) ([] ++ (processLog st c l).2)]
  simp

theorem processLogsBatch_all_seen (c : String) (tx : Nat) (ls : List LogRec) :
    ∀ st : MonitorState, (∀ l ∈ ls, l.transactionHash = tx) →
      tx ∈ st.processed_txs.order →
      (processLogsBatch st c ls).2 = [] ∧
      tx ∈ (processLogsBatch st c ls).1.processed_txs.order := by
  induction ls with
  | nil =>
    intro st _ hmem
    exact ⟨rfl, hmem⟩
  | cons l rest ih =>
    intro st hall hmem
    have hl : l.transactionHash = tx := hall l (List.mem_cons_self _ _)
    have hmem2 : l.transactionHash ∈ st.processed_txs.order := by
      rw [hl]
      exact hmem
    have hseen := processLog_seen st c l hmem2
    have hmem3 : tx ∈ (processLog st c l).1.processed_txs.order := by
      rw [← hl]
      exact hseen.2
    have hrec := ih ((processLog st c l).1)
      (fun q hq => hall q (List.mem_cons_of_mem _ hq)) hmem3
    rw [processLogsBatch_cons]
    refine ⟨?_, hrec.2⟩
    rw [hseen.1, hrec.1]
    rfl

/-! ### Claim C2 -/

/-- C2 counterexample: two Transfer logs of the same transaction, for two
different monitored tokens, each of which alone would raise an alert (each
touches a whale of its own token and clears the USD threshold), produce only
one alert when processed as a batch — the second log is dropped by the
transaction-hash dedup — not the two independent alerts the claim promises. -/
theorem claim_C2_counterexample :
    exLog1.transactionHash = exLog2.transactionHash ∧
    exLog1.address ≠ exLog2.address ∧
    (processLog exState "c" exLog1).2.length = 1 ∧
    (processLog exState "c" exLog2).2.length = 1 ∧
    (processLogsBatch exState "c" [exLog1, exLog2]).2.length = 1 ∧
    (processLogsBatch exState "c" [exLog1, exLog2]).2.length ≠ 2 := by
  refine ⟨by decide, by decide, by with_unfolding_all decide, by with_unfolding_all decide,
    by with_unfolding_all decide, by with_unfolding_all decide⟩

/-- C2 (amended): when the first log of a transaction produces an alert, the
transaction hash enters the dedup set, so every later log of the same
transaction in the batch — in particular the Transfer of a second monitored
token — is dropped: the batch yields exactly the one alert of the first log,
not one alert per token. -/
theorem claim_C2 (st : MonitorState) (chainName : String) (l1 : LogRec)
    (rest : List LogRec) (st1 : MonitorState) (a : AlertRec)
    (hcap : 1 ≤ st.processed_txs.capacity)
    (h1 : processLog st chainName l1 = (st1, [a]))
    (hrest : ∀ l ∈ rest, l.transactionHash = l1.transactionHash) :
    (processLogsBatch st chainName (l1 :: rest)).2 = [a] := by
  have hmem : l1.transactionHash ∈ st1.processed_txs.order := by
    have hne : (processLog st chainName l1).2 ≠ [] := by
      rw [h1]
      simp
    have := processLog_alert_mem st chainName l1 hcap hne
    rw [h1] at this
    exact this
  have hall := processLogsBatch_all_seen chainName l1.transactionHash rest st1 hrest hmem
  rw [processLogsBatch_cons, h1]
  simp [hall.1]

/-- C2 witness. -/
theorem claim_C2_witness :
    1 ≤ exState.processed_txs.capacity ∧
    processLog exState "c" exLog1 = ((processLog exState "c" exLog1).1, [exAlert1]) ∧
    (∀ l ∈ [exLog2], l.transactionHash = exLog1.transactionHash) ∧
    (processLogsBatch exState "c" [exLog1, exLog2]).2 = [exAlert1] :=
  ⟨by decide, by with_unfolding_all decide, by decide,
    claim_C2 exState "c" exLog1 [exLog2] (processLog exState "c" exLog1).1 exAlert1
      (by decide) (by with_unfolding_all decide) (by decide)⟩

/-! ### Claim C6 -/

/-- C6: for a classified whale-hit log whose transaction hash is not yet in
the dedup set (the log well-formed and its token monitored on this chain),
an alert is enqueued iff `usd_value ≥ threshold_usd` — the comparison is
`≥`, so a transfer exactly at the threshold alerts — and the transaction
hash is inserted into the dedup set in the above-threshold and
below-threshold cases alike. -/
theorem claim_C6 (st : MonitorState) (chainName : String) (l : LogRec) (ti : TokenInfo)
    (hit : Nat × Nat × String)
    (hcap : 1 ≤ st.processed_txs.capacity)
    (hmem : l.transactionHash ∉ st.processed_txs.order)
    (hlen : ¬ l.topics.length < 3)
    (htok : alookup l.address st.tokens = some ti)
    (hchain : ti.chain = chainName)
    (hhit : classifyHit st.global_whale_index l.address (logFrom l) (logTo l)
        (decide (logFrom l = ZERO_ADDRESS))
        (decide (logTo l = ZERO_ADDRESS ∨ logTo l = DEAD_ADDRESS)) = some hit) :
    processLog st chainName l =
      ({ st with processed_txs := (st.processed_txs.add l.transactionHash).1 },
        if ti.threshold_usd ≤ logUsd ti l then
          [⟨l.address, hit.1, hit.2.1, hit.2.2, logAmount ti l, logUsd ti l,
            l.transactionHash, l.blockNumber⟩]
        else []) ∧
    ((processLog st chainName l).2 ≠ [] ↔ ti.threshold_usd ≤ logUsd ti l) ∧
    l.transactionHash ∈ (processLog st chainName l).1.processed_txs.order := by
  have hev : processLog st chainName l =
      ({ st with processed_txs := (st.processed_txs.add l.transactionHash).1 },
        if ti.threshold_usd ≤ logUsd ti l then
          [⟨l.address, hit.1, hit.2.1, hit.2.2, logAmount ti l, logUsd ti l,
            l.transactionHash, l.blockNumber⟩]
        else []) := by
    unfold processLog
    rw [if_neg hlen, lru_containsBump_not_mem st.processed_txs l.transactionHash hmem]
    rw [if_neg (show ¬ ((false, st.processed_txs).1 = true) by simp)]
    rw [htok]
    dsimp only
    rw [if_neg (show ¬ ti.chain ≠ chainName from fun h => h hchain), hhit]
  refine ⟨hev, ?_, ?_⟩
  · rw [hev]
    by_cases hthr : ti.threshold_usd ≤ logUsd ti l
    · simp [hthr]
    · simp [hthr]
  · rw [hev]
    exact lru_add_mem st.processed_txs l.transactionHash hcap

/-- C6 witness. -/
theorem claim_C6_witness :
    (1 ≤ exState.processed_txs.capacity ∧
     exLog1.transactionHash ∉ exState.processed_txs.order ∧
     ¬ exLog1.topics.length < 3 ∧
     alookup exLog1.address exState.tokens = some exTokenA ∧
     exTokenA.chain = "c" ∧
     classifyHit exState.global_whale_index exLog1.address (logFrom exLog1) (logTo exLog1)
        (decide (logFrom exLog1 = ZERO_ADDRESS))
        (decide (logTo exLog1 = ZERO_ADDRESS ∨ logTo exLog1 = DEAD_ADDRESS))
       = some (100, 1, "sell")) ∧
    (((processLog exState "c" exLog1).2 ≠ [] ↔
        exTokenA.threshold_usd ≤ logUsd exTokenA exLog1) ∧
     exLog1.transactionHash ∈ (processLog exState "c" exLog1).1.processed_txs.order) := by
  have h := claim_C6 exState "c" exLog1 exTokenA (100, 1, "sell") (by decide) (by decide)
    (by decide) (by decide) (by decide) (by decide)
  exact ⟨⟨by decide, by decide, by decide, by decide, by decide, by decide⟩, h.2⟩

/-! ### Claim C7 -/

/-- C7: along any operation sequence on a dedup set of capacity `c` starting
empty, every reached state stores at most `c` keys (without duplicates); a
`contains` hit moves the key to the most-recent position, as does an `add`
of a present key (which never evicts); and whenever an `add` evicts, the
evicted key is the head of the recency order at eviction time — the
least-recently touched key. -/
theorem claim_C7 (c : Nat) (ops : List LOp) (s : LRUCache) (hs : s ∈ lruTrace c ops) :
    (s.order.Nodup ∧ s.order.length ≤ c) ∧
    (∀ k, (s.containsBump k).1 = true → (s.containsBump k).2.order.getLast? = some k) ∧
    (∀ k, k ∈ s.order → (s.add k).1.order.getLast? = some k ∧ (s.add k).2 = none) ∧
    (∀ k ev, (s.add k).2 = some ev → (s.order ++ [k]).head? = some ev) := by
  obtain ⟨hnd, hlen, hcap⟩ := lru_trace_valid c ops s hs
  refine ⟨⟨hnd, hlen⟩, ?_, ?_, ?_⟩
  · intro k hk
    unfold LRUCache.containsBump at hk ⊢
    by_cases hm : k ∈ s.order
    · rw [if_pos hm]
      exact bumpList_getLast s.order k
    · rw [if_neg hm] at hk
      simp at hk
  · intro k hm
    unfold LRUCache.add
    rw [if_pos hm]
    exact ⟨bumpList_getLast s.order k, rfl⟩
  · intro k ev hev
    unfold LRUCache.add at hev
    by_cases hm : k ∈ s.order
    · rw [if_pos hm] at hev
      simp at hev
    · rw [if_neg hm] at hev
      by_cases hlong : s.capacity < (s.order ++ [k]).length
      · rw [if_pos hlong] at hev
        simpa using hev
      · rw [if_neg hlong] at hev
        simp at hev

/-- C7 witness. -/
theorem claim_C7_witness :
    ((⟨[2, 3], 2⟩ : LRUCache) ∈ lruTrace 2 [LOp.put 1, LOp.put 2, LOp.put 3]) ∧
    ((([2, 3] : List Nat).Nodup ∧ ([2, 3] : List Nat).length ≤ 2) ∧
     (∀ k, ((⟨[2, 3], 2⟩ : LRUCache).containsBump k).1 = true →
        ((⟨[2, 3], 2⟩ : LRUCache).containsBump k).2.order.getLast? = some k) ∧
     (∀ k, k ∈ ([2, 3] : List Nat) →
        ((⟨[2, 3], 2⟩ : LRUCache).add k).1.order.getLast? = some k ∧
        ((⟨[2, 3], 2⟩ : LRUCache).add k).2 = none) ∧
     (∀ k ev, ((⟨[2, 3], 2⟩ : LRUCache).add k).2 = some ev →
        (([2, 3] : List Nat) ++ [k]).head? = some ev)) :=
  ⟨by decide, claim_C7 2 [LOp.put 1, LOp.put 2, LOp.put 3] ⟨[2, 3], 2⟩ (by decide)⟩

/-! ### Claim C8 -/

theorem range_map_shift (base : ℚ) (attempt n : Nat) :
    (List.range (n + 1)).map (fun i => base * 2 ^ (attempt + i)) =
      base * 2 ^ attempt :: (List.range n).map (fun i => base * 2 ^ (attempt + 1 + i)) := by
  rw [List.range_succ_eq_map]
  simp only [List.map_cons, List.map_map, Nat.add_zero]
  congr 1
  apply List.map_congr_left
  intro i _
  simp only [Function.comp]
  have h : attempt + Nat.succ i = attempt + 1 + i := by omega
  rw [h]

theorem retryGo_fail {E A : Type} (f : Nat → Except E A) (base : ℚ) (errs : Nat → E) :
    ∀ (r attempt : Nat) (last : Option E), 1 ≤ r →
      (∀ i, attempt ≤ i → i < attempt + r → f i = .error (errs i)) →
      retryGo f base r attempt last =
        (.error (some (errs (attempt + r - 1))),
          (List.range (r - 1)).map (fun i => base * 2 ^ (attempt + i))) := by
  intro r
  induction r with
  | zero =>
    intro attempt last h1
    omega
  | succ r ih =>
    intro attempt last _ hfail
    have hfa : f attempt = .error (errs attempt) := hfail attempt (le_refl _) (by omega)
    unfold retryGo
    rw [hfa]
    dsimp only
    by_cases hr : r = 0
    · subst hr
      simp
    · rw [if_neg hr]
      have hr1 : 1 ≤ r := Nat.one_le_iff_ne_zero.mpr hr
      have hrec := ih (attempt + 1) (some (errs attempt)) hr1
        (fun i hi1 hi2 => hfail i (by omega) (by omega))
      rw [hrec]
      have hidx : attempt + 1 + r - 1 = attempt + (r + 1) - 1 := by omega
      rw [hidx]
      have hr2 : r + 1 - 1 = (r - 1) + 1 := by omega
      rw [hr2, range_map_shift]

theorem retryGo_success {E A : Type} (f : Nat → Except E A) (base : ℚ) (errs : Nat → E)
    (a : A) :
    ∀ (j r attempt : Nat) (last : Option E), j < r →
      (∀ i, attempt ≤ i → i < attempt + j → f i = .error (errs i)) →
      f (attempt + j) = .ok a →
      retryGo f base r attempt last =
        (.ok a, (List.range j).map (fun i => base * 2 ^ (attempt + i))) := by
  intro j
  induction j with
  | zero =>
    intro r attempt last hjr hfail hok
    obtain ⟨r2, rfl⟩ : ∃ r2, r = r2 + 1 := ⟨r - 1, by omega⟩
    unfold retryGo
    rw [Nat.add_zero] at hok
    rw [hok]
    simp
  | succ j ih =>
    intro r attempt last hjr hfail hok
    obtain ⟨r2, rfl⟩ : ∃ r2, r = r2 + 1 := ⟨r - 1, by omega⟩
    have hfa : f attempt = .error (errs attempt) := hfail attempt (le_refl _) (by omega)
    unfold retryGo
    rw [hfa]
    dsimp only
    have hr2 : ¬ r2 = 0 := by omega
    rw [if_neg hr2]
    have hok2 : f (attempt + 1 + j) = .ok a := by
      have h : attempt + 1 + j = attempt + (j + 1) := by omega
      rw [h]
      exact hok
    have hrec := ih r2 (attempt + 1) (some (errs attempt)) (by omega)
      (fun i hi1 hi2 => hfail i (by omega) (by omega)) hok2
    rw [hrec, range_map_shift]

/-- C8: the retry decorator makes up to `maxRetries` total attempts; before
retry number `attempt + 1` it sleeps `base * 2 ^ attempt`; it re-raises the
last exception only once all `maxRetries` attempts have failed, and returns
without further sleeping as soon as an attempt succeeds. -/
theorem claim_C8 {E A : Type} (maxRetries : Nat) (base : ℚ) (h1 : 1 ≤ maxRetries) :
    (∀ (f : Nat → Except E A) (errs : Nat → E),
      (∀ i, i < maxRetries → f i = .error (errs i)) →
      with_retry maxRetries base f =
        (.error (some (errs (maxRetries - 1))),
          (List.range (maxRetries - 1)).map (fun i => base * 2 ^ i))) ∧
    (∀ (f : Nat → Except E A) (errs : Nat → E) (j : Nat) (a : A),
      j < maxRetries → (∀ i, i < j → f i = .error (errs i)) → f j = .ok a →
      with_retry maxRetries base f = (.ok a, (List.range j).map (fun i => base * 2 ^ i))) := by
  constructor
  · intro f errs hfail
    unfold with_retry
    have h := retryGo_fail f base errs maxRetries 0 none h1
      (fun i hi1 hi2 => hfail i (by omega))
    rw [h]
    simp
  · intro f errs j a hj hfail hok
    unfold with_retry
    have h := retryGo_success f base errs a j maxRetries 0 none hj
      (fun i hi1 hi2 => hfail i (by omega)) (by simpa using hok)
    rw [h]
    simp

/-- C8 witness. -/
theorem claim_C8_witness :
    (1 : Nat) ≤ 3 ∧
    with_retry 3 (1 : ℚ) (fun _ => (Except.error "boom" : Except String Nat)) =
      (.error (some "boom"), (List.range (3 - 1)).map (fun i => (1 : ℚ) * 2 ^ i)) :=
  ⟨by decide, (claim_C8 3 1 (by decide)).1 (fun _ => .error "boom") (fun _ => "boom")
      (fun i _ => rfl)⟩

/-! ### Claim C9 -/

/-- C9: a successful `save` followed by `load_holders` on the same token
address with no max-age returns exactly the saved (address, rank, balance)
triples, in order, each field preserved; the derived `readableBalance` and
the metadata fields are dropped by `load_holders`. -/
theorem claim_C9 (store : CacheStore) (nowS nowL : ℚ) (tok : String)
    (holders : List (String × Nat × ℚ)) (symbol source : String) (dec : Nat) :
    WhaleCache.load_holders (WhaleCache.save store nowS tok holders symbol source dec)
      nowL tok none = some holders := by
  unfold WhaleCache.load_holders WhaleCache.load WhaleCache.save
  rw [ainsert_lookup_self]
  dsimp only
  congr 1
  induction holders with
  | nil => rfl
  | cons h t ih => simp [ih]

/-! ### Claim C10 -/

theorem mem_akeys_ainsert_of_mem {α β : Type} [DecidableEq α] (k a : α) (v : β)
    (l : List (α × β)) (ha : a ∈ akeys l) : a ∈ akeys (ainsert k v l) := by
  rw [akeys_ainsert]
  by_cases hm : k ∈ akeys l
  · rwa [if_pos hm]
  · rw [if_neg hm]
    exact List.mem_append.mpr (Or.inl ha)

theorem get_target_tokens_keys_mono (items : List TargetItem) :
    ∀ acc : List (String × TokenCfg), ∀ a, a ∈ akeys acc →
      a ∈ akeys (items.foldl (fun acc2 item =>
        match parseItem item with
        | none => acc2
        | some p => ainsert p.1 p.2 acc2) acc) := by
  induction items with
  | nil =>
    intro acc a ha
    exact ha
  | cons it rest ih =>
    intro acc a ha
    simp only [List.foldl_cons]
    cases hp : parseItem it with
    | none => exact ih acc a ha
    | some p => exact ih _ a (mem_akeys_ainsert_of_mem p.1 a p.2 acc ha)

/-- C10: a configured token entry whose chain name is not among the
supported chains is neither dropped nor rejected: it parses to an entry for
chain "ethereum" with the entry's other settings intact (its own
`top_n`/`threshold_usd` for the dict shape, the defaults for the tuple
shape), and its address is among the keys `get_target_tokens` returns. -/
theorem claim_C10 (addr chain : String) (topn : Nat) (thr : ℚ) (rest : List TargetItem)
    (hchain : chain ∉ supportedChains)
    (haddr : addr.startsWith "0x" = true) :
    parseItem (.dictAddr (some addr) (some chain) (some topn) (some thr))
        = some (addr, ⟨topn, thr, "ethereum"⟩) ∧
    parseItem (.tupAddr addr (some chain))
        = some (addr, ⟨DEFAULT_TOP_N, DEFAULT_THRESHOLD_USD, "ethereum"⟩) ∧
    addr ∈ akeys (get_target_tokens
        (TargetItem.dictAddr (some addr) (some chain) (some topn) (some thr) :: rest)) := by
  have hne : ¬ (addr = "" ∨ ¬ addr.startsWith "0x") := by
    intro hor
    rcases hor with he | hs
    · rw [he] at haddr
      exact absurd haddr (by decide)
    · exact hs haddr
  have hparse : parseItem (.dictAddr (some addr) (some chain) (some topn) (some thr))
      = some (addr, ⟨topn, thr, "ethereum"⟩) := by
    unfold parseItem normEntry
    dsimp only [Option.getD]
    rw [if_neg hne, if_neg hchain]
  have hparse2 : parseItem (.tupAddr addr (some chain))
      = some (addr, ⟨DEFAULT_TOP_N, DEFAULT_THRESHOLD_USD, "ethereum"⟩) := by
    unfold parseItem normEntry
    dsimp only [Option.getD]
    rw [if_neg hne, if_neg hchain]
  refine ⟨hparse, hparse2, ?_⟩
  unfold get_target_tokens
  rw [List.foldl_cons, hparse]
  exact get_target_tokens_keys_mono rest _ addr (by simp [akeys, ainsert])

/-- C10 witness. -/
theorem claim_C10_witness :
    ("solana" ∉ supportedChains) ∧
    ("0xAA".startsWith "0x" = true) ∧
    (parseItem (.dictAddr (some "0xAA") (some "solana") (some 7) (some 5))
        = some ("0xAA", ⟨7, 5, "ethereum"⟩) ∧
     parseItem (.tupAddr "0xAA" (some "solana"))
        = some ("0xAA", ⟨DEFAULT_TOP_N, DEFAULT_THRESHOLD_USD, "ethereum"⟩) ∧
     "0xAA" ∈ akeys (get_target_tokens
        (TargetItem.dictAddr (some "0xAA") (some "solana") (some 7) (some 5)
          :: [TargetItem.strAddr "0xBB"]))) :=
  ⟨by decide, by with_unfolding_all decide, claim_C10 "0xAA" "solana" 7 5
      [TargetItem.strAddr "0xBB"] (by decide) (by with_unfolding_all decide)⟩
